import Mathlib

/-!
Verification of the SMC (Sequential Monte Carlo) sampler specification and of
the quadratic (Laplace) approximation utility of this repository.

The SMC core (tempering schedule, reweighting, systematic resampling,
Metropolis mutation, driver loop) is modelled from the specification, since
only its tests ship in the source tree; the quadratic approximation is
embedded from `pymc3/quadratic_approximation.py`.

Floating-point numbers are modelled as real numbers; the random inputs of
the sampler (uniform offsets, log-uniform draws, oracle evaluations) are
explicit arguments, so every component is a mathematical function of its
inputs.
-/

namespace SMC

/-- Modelled from the spec: numerically the log of the sum of exponentials
(`logsumexp`); in exact real arithmetic the max-subtraction trick is the
identity, so we use the direct form. -/
noncomputable def logsumexp (l : List ℝ) : ℝ :=
  Real.log ((l.map Real.exp).sum)

/-- Modelled from the spec (§4.2): given the per-particle log-likelihoods and
the temperature increment `delta`, the normalized importance weights are
`w_i = exp(delta * ll_i - logsumexp(delta * ll))`. -/
noncomputable def reweight (ll : List ℝ) (delta : ℝ) : List ℝ :=
  let lw := ll.map (fun x => delta * x)
  lw.map (fun x => Real.exp (x - logsumexp lw))

/-- Modelled from the spec (§4.2): the per-stage marginal-likelihood
increment `logsumexp(delta * ll_i) - log N`. -/
noncomputable def mll_increment (ll : List ℝ) (delta : ℝ) : ℝ :=
  logsumexp (ll.map (fun x => delta * x)) - Real.log ll.length

lemma sum_map_exp_pos (l : List ℝ) (h : l ≠ []) :
    0 < (l.map Real.exp).sum := by
  apply List.sum_pos
  · intro a ha
    rcases List.mem_map.mp ha with ⟨x, _, rfl⟩
    exact Real.exp_pos x
  · simpa using h

lemma reweight_sum (ll : List ℝ) (delta : ℝ) (h : ll ≠ []) :
    (reweight ll delta).sum = 1 := by
  unfold reweight logsumexp
  set lw := ll.map (fun x => delta * x) with hlw
  have hne : lw ≠ [] := by simpa [hlw] using h
  have hpos : 0 < (lw.map Real.exp).sum := sum_map_exp_pos lw hne
  have hexp : ∀ x : ℝ,
      Real.exp (x - Real.log ((lw.map Real.exp).sum)) =
        Real.exp x * ((lw.map Real.exp).sum)⁻¹ := by
    intro x
    rw [Real.exp_sub, Real.exp_log hpos, div_eq_mul_inv]
  calc (lw.map fun x => Real.exp (x - Real.log ((lw.map Real.exp).sum))).sum
      = (lw.map fun x => Real.exp x * ((lw.map Real.exp).sum)⁻¹).sum := by
        simp only [hexp]
    _ = (lw.map Real.exp).sum * ((lw.map Real.exp).sum)⁻¹ :=
        List.sum_map_mul_right lw Real.exp _
    _ = 1 := mul_inv_cancel₀ (ne_of_gt hpos)

/-- Modelled from the spec (§4.1): the effective sample size of the weights
`w_i ∝ exp((newB - oldB) * ll_i)`, computed as `1 / sum((w_i / sum w)^2)`. -/
noncomputable def essOf (ll : List ℝ) (oldB newB : ℝ) : ℝ :=
  let w := ll.map (fun l => Real.exp ((newB - oldB) * l))
  let s := w.sum
  1 / ((w.map (fun x => (x / s) ^ 2)).sum)

/-- Modelled from the spec (§4.1): bisection on the monotone-decreasing
function `f` (the ESS as a function of the candidate beta) over `[low, up]`,
running for a maximum iteration count and returning the final midpoint.
If the ESS at the midpoint is below the target the upper end moves down,
otherwise the lower end moves up. -/
noncomputable def bisect (f : ℝ → ℝ) (target : ℝ) : ℕ → ℝ → ℝ → ℝ
  | 0, low, up => (low + up) / 2
  | n + 1, low, up =>
      let mid := (low + up) / 2
      if f mid < target then bisect f target n low mid
      else bisect f target n mid up

/-- Modelled from the spec (§4.1): the tempering schedule controller.
If even `beta = 1` keeps the ESS at or above the target, return `1`
immediately without any search (the `Bool` component records whether a
bisection search ran); otherwise search `[beta, 1]` by bisection. -/
noncomputable def update_beta (f : ℝ → ℝ) (target : ℝ) (iters : ℕ) (beta : ℝ) :
    ℝ × Bool :=
  if target ≤ f 1 then (1, false)
  else (bisect f target iters beta 1, true)

lemma bisect_bounds (f : ℝ → ℝ) (target : ℝ) :
    ∀ (n : ℕ) (low up : ℝ), low < up →
      low < bisect f target n low up ∧ bisect f target n low up < up := by
  intro n
  induction n with
  | zero => intro low up h; constructor <;> [skip; skip] <;> simp [bisect] <;> linarith
  | succ n ih =>
      intro low up h
      have hmidl : low < (low + up) / 2 := by linarith
      have hmidu : (low + up) / 2 < up := by linarith
      by_cases hc : f ((low + up) / 2) < target
      · have := ih low ((low + up) / 2) hmidl
        constructor
        · simpa [bisect, hc] using this.1
        · have h2 : bisect f target n low ((low + up) / 2) < up :=
            lt_trans this.2 hmidu
          simpa [bisect, hc] using h2
      · have := ih ((low + up) / 2) up hmidu
        constructor
        · have h1 : low < bisect f target n ((low + up) / 2) up :=
            lt_trans hmidl this.1
          simpa [bisect, hc] using h1
        · simpa [bisect, hc] using this.2

lemma update_beta_mem (f : ℝ → ℝ) (target : ℝ) (iters : ℕ) (beta : ℝ)
    (h : beta < 1) :
    beta < (update_beta f target iters beta).1 ∧
      (update_beta f target iters beta).1 ≤ 1 := by
  unfold update_beta
  by_cases hc : target ≤ f 1
  · simp [hc, h]
  · have := bisect_bounds f target iters beta 1 h
    simp only [hc, if_false]
    exact ⟨this.1, le_of_lt this.2⟩

/-- Modelled from the spec (§4.6): the stage loop of the SMC driver.
`lls k` are the per-particle log-likelihoods the oracle reports at stage `k`
(the evolution of the population through resampling and mutation is folded
into this stage-indexed family).  Starting from the current `beta`, while
`beta < 1` the controller picks the next beta and the stage records the pair
`(new_beta, marginal-likelihood increment)`; `fuel` bounds the number of
stages attempted. -/
noncomputable def run_stages (lls : ℕ → List ℝ) (target : ℝ) (iters : ℕ) :
    ℕ → ℝ → ℕ → List (ℝ × ℝ)
  | 0, _, _ => []
  | fuel + 1, beta, k =>
      if 1 ≤ beta then []
      else
        let nb := (update_beta (essOf (lls k) beta) target iters beta).1
        (nb, mll_increment (lls k) (nb - beta)) ::
          run_stages lls target iters fuel nb (k + 1)

/-- Modelled from the spec (§4.2, §4.6): the final log-marginal-likelihood
estimate is the accumulated sum of the per-stage increments. -/
noncomputable def log_marginal (lls : ℕ → List ℝ) (target : ℝ)
    (iters fuel : ℕ) : ℝ :=
  ((run_stages lls target iters fuel 0 0).map Prod.snd).sum

lemma run_stages_of_one_le (lls : ℕ → List ℝ) (target : ℝ) (iters : ℕ)
    (fuel : ℕ) (beta : ℝ) (k : ℕ) (h : 1 ≤ beta) :
    run_stages lls target iters fuel beta k = [] := by
  cases fuel with
  | zero => rfl
  | succ n => simp [run_stages, h]

lemma run_stages_chain (lls : ℕ → List ℝ) (target : ℝ) (iters : ℕ) :
    ∀ (fuel : ℕ) (beta : ℝ) (k : ℕ),
      List.Chain (· < ·) beta
        ((run_stages lls target iters fuel beta k).map Prod.fst) ∧
      ∀ b ∈ (run_stages lls target iters fuel beta k).map Prod.fst,
        beta < b ∧ b ≤ 1 := by
  intro fuel
  induction fuel with
  | zero => intro beta k; simp [run_stages]
  | succ n ih =>
      intro beta k
      by_cases h : 1 ≤ beta
      · simp [run_stages, h]
      · have hlt : beta < 1 := lt_of_not_le h
        have hub := update_beta_mem (essOf (lls k) beta) target iters beta hlt
        set nb := (update_beta (essOf (lls k) beta) target iters beta).1 with hnb
        have ihnb := ih nb (k + 1)
        constructor
        · simp only [run_stages, h, if_false, List.map_cons]
          exact List.Chain.cons hub.1 ihnb.1
        · intro b hb
          simp only [run_stages, h, if_false, List.map_cons, List.mem_cons] at hb
          rcases hb with rfl | hb
          · exact hub
          · exact ⟨lt_trans hub.1 (ihnb.2 b hb).1, (ihnb.2 b hb).2⟩

lemma run_stages_ne_nil (lls : ℕ → List ℝ) (target : ℝ) (iters fuel : ℕ)
    (hf : 0 < fuel) (k : ℕ) :
    run_stages lls target iters fuel 0 k ≠ [] := by
  obtain ⟨f, rfl⟩ : ∃ f, fuel = f + 1 :=
    ⟨fuel - 1, (Nat.succ_pred_eq_of_pos hf).symm⟩
  simp [run_stages, show ¬ (1 : ℝ) ≤ 0 by norm_num]

lemma run_stages_last_eq_one (lls : ℕ → List ℝ) (target : ℝ) (iters : ℕ) :
    ∀ (fuel : ℕ) (beta : ℝ) (k : ℕ),
      (run_stages lls target iters fuel beta k).length < fuel →
      run_stages lls target iters fuel beta k = [] ∨
        ((run_stages lls target iters fuel beta k).map Prod.fst).getLast? =
          some 1 := by
  intro fuel
  induction fuel with
  | zero => intro beta k h; exact absurd h (Nat.not_lt_zero _)
  | succ f ih =>
      intro beta k h
      by_cases hb : 1 ≤ beta
      · exact Or.inl (run_stages_of_one_le lls target iters (f + 1) beta k hb)
      · right
        have hlt : beta < 1 := lt_of_not_le hb
        have hub := update_beta_mem (essOf (lls k) beta) target iters beta hlt
        have hseq : run_stages lls target iters (f + 1) beta k =
            ((update_beta (essOf (lls k) beta) target iters beta).1,
              mll_increment (lls k)
                ((update_beta (essOf (lls k) beta) target iters beta).1 - beta)) ::
              run_stages lls target iters f
                (update_beta (essOf (lls k) beta) target iters beta).1 (k + 1) := by
          simp [run_stages, hb]
        set nb := (update_beta (essOf (lls k) beta) target iters beta).1 with hnb
        have hrest : (run_stages lls target iters f nb (k + 1)).length < f := by
          rw [hseq] at h
          simpa using h
        rcases ih nb (k + 1) hrest with hnil | hlast
        · have hf : 0 < f := lt_of_le_of_lt (Nat.zero_le _) hrest
          have h1nb : (1 : ℝ) ≤ nb := by
            by_contra hc
            obtain ⟨f', rfl⟩ : ∃ f', f = f' + 1 :=
              ⟨f - 1, (Nat.succ_pred_eq_of_pos hf).symm⟩
            simp [run_stages, hc] at hnil
          have hone : nb = 1 := le_antisymm hub.2 h1nb
          rw [hseq, hnil]
          simp [hone]
        · have hne : run_stages lls target iters f nb (k + 1) ≠ [] := by
            intro hcon
            rw [hcon] at hlast
            simp at hlast
          obtain ⟨y, ys, hys⟩ := List.exists_cons_of_ne_nil hne
          rw [hys] at hlast
          rw [hseq, hys]
          simpa [List.getLast?_cons_cons] using hlast

/-- The stage records of a driver run, checked against the reweighting
formula: starting from previous beta `b` at stage `k`, each record
`(nb, inc)` must satisfy `inc = logsumexp((nb - b) * ll_i) - log N` with the
next record checked against previous beta `nb`. -/
noncomputable def IncrementsOk (lls : ℕ → List ℝ) : ℕ → ℝ → List (ℝ × ℝ) → Prop
  | _, _, [] => True
  | k, b, (nb, inc) :: rest =>
      inc = logsumexp ((lls k).map (fun x => (nb - b) * x)) -
          Real.log (lls k).length ∧
        IncrementsOk lls (k + 1) nb rest

lemma run_stages_increments (lls : ℕ → List ℝ) (target : ℝ) (iters : ℕ) :
    ∀ (fuel : ℕ) (beta : ℝ) (k : ℕ),
      IncrementsOk lls k beta (run_stages lls target iters fuel beta k) := by
  intro fuel
  induction fuel with
  | zero => intro beta k; simp [run_stages, IncrementsOk]
  | succ n ih =>
      intro beta k
      by_cases h : 1 ≤ beta
      · simp [run_stages, h, IncrementsOk]
      · simp only [run_stages, h, if_false]
        exact ⟨rfl, ih _ (k + 1)⟩

lemma essOf_const (ll : List ℝ) (c b nb : ℝ) (h : ll ≠ [])
    (hc : ∀ x ∈ ll, x = c) :
    essOf ll b nb = ll.length := by
  have hrep : ll = List.replicate ll.length c := List.eq_replicate_length.mpr hc
  have hnpos : 0 < ll.length := List.length_pos.mpr h
  have hn : (ll.length : ℝ) ≠ 0 := Nat.cast_ne_zero.mpr (Nat.pos_iff_ne_zero.mp hnpos)
  have he : Real.exp ((nb - b) * c) ≠ 0 := Real.exp_ne_zero _
  conv_lhs => rw [hrep]
  simp only [essOf, List.map_replicate, List.sum_replicate, nsmul_eq_mul,
    List.length_replicate]
  field_simp
  ring

/-- Modelled from the spec (§4.3): running cumulative sums of a weight list,
starting from accumulator `acc`. -/
noncomputable def cumsum : ℝ → List ℝ → List ℝ
  | _, [] => []
  | acc, w :: ws => (acc + w) :: cumsum (acc + w) ws

/-- Modelled from the spec (§4.3): the index of the particle whose cumulative
weight interval contains the point `t` — the first position whose cumulative
weight strictly exceeds `t`. -/
noncomputable def pick : List ℝ → ℝ → ℕ
  | [], _ => 0
  | c :: cs, t => if t < c then 0 else pick cs t + 1

/-- Modelled from the spec (§4.3): systematic resampling — one uniform
offset `u ~ Uniform(0, 1/N)` and the `N` evenly spaced points `u + i/N`
mapped through the cumulative weight intervals. -/
noncomputable def systematic (w : List ℝ) (u : ℝ) : List ℕ :=
  (List.range w.length).map
    (fun i : ℕ => pick (cumsum 0 w) (u + (i : ℝ) / (w.length : ℝ)))

/-- Modelled from the spec (§4.3): the resampler returns the `N` selected
particle values together with the weight vector reset to uniform `1/N`. -/
noncomputable def resample (vals w : List ℝ) (u : ℝ) : List ℝ × List ℝ :=
  ((systematic w u).map (fun j => vals.getD j 0),
    List.replicate w.length (1 / (w.length : ℝ)))

/-- A degenerate weight vector of size `n`: particle `k` holds weight 1 and
every other particle holds weight 0. -/
def unitWeights (n k : ℕ) : List ℝ :=
  List.replicate k 0 ++ 1 :: List.replicate (n - k - 1) 0

lemma cumsum_replicate_zero (a : ℝ) (m : ℕ) (rest : List ℝ) :
    cumsum a (List.replicate m 0 ++ rest) =
      List.replicate m a ++ cumsum a rest := by
  induction m with
  | zero => simp
  | succ j ih => simp [List.replicate_succ, cumsum, ih]

lemma cumsum_one_replicate_zero (a : ℝ) (m : ℕ) :
    cumsum a (1 :: List.replicate m 0) = List.replicate (m + 1) (a + 1) := by
  have h := cumsum_replicate_zero (a + 1) m []
  simp only [List.append_nil, cumsum] at h
  simp [cumsum, h, List.replicate_succ]

lemma pick_step (t : ℝ) (m : ℕ) (h0 : 0 < t) (h1 : t < 1) :
    ∀ k : ℕ, pick (List.replicate k 0 ++ List.replicate (m + 1) 1) t = k := by
  intro k
  induction k with
  | zero => simp [List.replicate_succ, pick, h1]
  | succ j ih =>
      have hneg : ¬ t < 0 := not_lt.mpr (le_of_lt h0)
      rw [List.replicate_succ, List.cons_append]
      simp only [pick, hneg, if_false, ih]

/-- A particle's cached state: value, log-prior and log-likelihood. -/
structure MhState where
  value : ℝ
  log_prior : ℝ
  log_likelihood : ℝ

/-- Modelled from the spec (§4.4, step 3): the Metropolis acceptance
log-ratio between the proposed and the current particle state at
temperature `beta`. -/
noncomputable def accept_ratio (beta : ℝ) (cur prop : MhState) : ℝ :=
  (prop.log_prior + beta * prop.log_likelihood) -
    (cur.log_prior + beta * cur.log_likelihood)

/-- Modelled from the spec (§4.4, step 4): one Metropolis step.  `logU` is
the logarithm of the uniform(0,1) draw; the proposal is accepted exactly
when `logU < accept_ratio`; on acceptance the particle's state is replaced,
on rejection it is kept unchanged.  The `Bool` reports acceptance. -/
noncomputable def mh_step (beta : ℝ) (cur prop : MhState) (logU : ℝ) :
    MhState × Bool :=
  if logU < accept_ratio beta cur prop then (prop, true) else (cur, false)

/-- Modelled from the spec (§4.4): a chain of Metropolis steps over a list
of `(proposal, logU)` pairs, returning the final state, the number of
accepted steps and the total number of steps counted toward the
acceptance-rate statistic (every step counts, accepted or not). -/
noncomputable def mh_chain (beta : ℝ) : MhState → List (MhState × ℝ) → MhState × ℕ × ℕ
  | cur, [] => (cur, 0, 0)
  | cur, (prop, logU) :: rest =>
      let s := mh_step beta cur prop logU
      let r := mh_chain beta s.1 rest
      (r.1, (if s.2 then 1 else 0) + r.2.1, 1 + r.2.2)

lemma mh_chain_total (beta : ℝ) :
    ∀ (steps : List (MhState × ℝ)) (cur : MhState),
      (mh_chain beta cur steps).2.2 = steps.length := by
  intro steps
  induction steps with
  | nil => intro cur; rfl
  | cons x rest ih =>
      intro cur
      obtain ⟨prop, logU⟩ := x
      simp [mh_chain, ih, Nat.add_comm]

lemma mh_chain_flat_accepts (beta : ℝ) (P : MhState → Prop)
    (hflat : ∀ s₁ s₂ : MhState, P s₁ → P s₂ → 0 ≤ accept_ratio beta s₁ s₂) :
    ∀ (steps : List (MhState × ℝ)) (cur : MhState), P cur →
      (∀ x ∈ steps, P x.1) → (∀ x ∈ steps, x.2 < 0) →
      (mh_chain beta cur steps).2.1 = steps.length := by
  intro steps
  induction steps with
  | nil => intro cur _ _ _; rfl
  | cons x rest ih =>
      intro cur hcur hmem hu
      obtain ⟨prop, logU⟩ := x
      have hprop : P prop := hmem (prop, logU) (List.mem_cons_self _ _)
      have hratio : 0 ≤ accept_ratio beta cur prop := hflat cur prop hcur hprop
      have hU : logU < 0 := hu (prop, logU) (List.mem_cons_self _ _)
      have hacc : mh_step beta cur prop logU = (prop, true) := by
        unfold mh_step
        rw [if_pos (lt_of_lt_of_le hU hratio)]
      have htail := ih prop hprop
        (fun y hy => hmem y (List.mem_cons_of_mem _ hy))
        (fun y hy => hu y (List.mem_cons_of_mem _ hy))
      simp [mh_chain, hacc, htail, Nat.add_comm]

/-- The mutation kernel variant, chosen by configuration. -/
inductive SmcKernel
  | metropolis
  | abc
deriving DecidableEq

/-- Modelled from the spec (§6): the configuration options of `sample_smc`
relevant to validation and determinism. -/
structure SmcConfig where
  draws : ℕ
  chains : ℕ
  kernel : SmcKernel
  modelIsNamed : Bool
  randomSeed : ℕ

/-- Modelled from the spec (§7): the typed failures raised before any
sampling stage runs. -/
inductive SmcError
  | namedModelsUnsupported
  | nonPositiveDraws
  | zeroChains
deriving DecidableEq

/-- Modelled from the spec (§7): non-fatal warnings surfaced alongside a
completed run. -/
inductive SmcWarning
  | tooFewSamples
deriving DecidableEq

/-- The output of a successful SMC run: the beta stage sequence, the
per-stage marginal-likelihood increments, the accumulated
log-marginal-likelihood estimate and the non-fatal warnings. -/
structure SmcResult where
  betas : List ℝ
  increments : List ℝ
  logMarginal : ℝ
  warnings : List SmcWarning

/-- Modelled from the spec (§4.6, §6, §7): the `sample_smc` entry point.
Configuration is validated first — the ABC kernel on a named model, a
non-positive number of draws, or zero chains abort with a typed error
before any stage runs.  Otherwise the stage loop runs on the oracle's
log-likelihoods for the configured random seed, warning (non-fatally) when
the number of samples is below the recommended minimum of 100. -/
noncomputable def sample_smc (cfg : SmcConfig) (oracle : ℕ → ℕ → List ℝ)
    (target : ℝ) (iters fuel : ℕ) : Except SmcError SmcResult :=
  if cfg.kernel = SmcKernel.abc ∧ cfg.modelIsNamed then
    Except.error SmcError.namedModelsUnsupported
  else if cfg.draws = 0 then Except.error SmcError.nonPositiveDraws
  else if cfg.chains = 0 then Except.error SmcError.zeroChains
  else
    let seq := run_stages (oracle cfg.randomSeed) target iters fuel 0 0
    Except.ok
      { betas := seq.map Prod.fst
        increments := seq.map Prod.snd
        logMarginal := (seq.map Prod.snd).sum
        warnings :=
          if cfg.draws < 100 then [SmcWarning.tooFewSamples] else [] }

end SMC

/-- C7: the SMC driver is a deterministic function of its seed and inputs:
two runs whose configurations agree componentwise (in particular on
`randomSeed`) against the same oracle return identical results — identical
beta stage sequences, identical per-stage diagnostics and an identical
final marginal-likelihood estimate. -/
theorem SMC.sample_smc_deterministic (cfg cfg' : SMC.SmcConfig)
    (oracle : ℕ → ℕ → List ℝ) (target : ℝ) (iters fuel : ℕ)
    (hseed : cfg.randomSeed = cfg'.randomSeed) (hd : cfg.draws = cfg'.draws)
    (hc : cfg.chains = cfg'.chains) (hk : cfg.kernel = cfg'.kernel)
    (hm : cfg.modelIsNamed = cfg'.modelIsNamed) :
    SMC.sample_smc cfg oracle target iters fuel =
      SMC.sample_smc cfg' oracle target iters fuel ∧
    (∀ r r' : SMC.SmcResult,
      SMC.sample_smc cfg oracle target iters fuel = Except.ok r →
      SMC.sample_smc cfg' oracle target iters fuel = Except.ok r' →
      r.betas = r'.betas ∧ r.increments = r'.increments ∧
        r.logMarginal = r'.logMarginal) := by
  obtain ⟨d, c, k, m, s⟩ := cfg
  obtain ⟨d', c', k', m', s'⟩ := cfg'
  simp only at hseed hd hc hk hm
  subst hseed hd hc hk hm
  refine ⟨rfl, ?_⟩
  intro r r' h h'
  rw [h] at h'
  obtain rfl : r = r' := by injection h'
  exact ⟨rfl, rfl, rfl⟩

/-- Witness for C7 at a concrete configuration, oracle and seed. -/
theorem SMC.sample_smc_deterministic_witness :
    SMC.sample_smc ⟨100, 1, SMC.SmcKernel.metropolis, false, 42⟩
        (fun _ _ => [0, 1]) (1 / 2) 21 5 =
      SMC.sample_smc ⟨100, 1, SMC.SmcKernel.metropolis, false, 42⟩
        (fun _ _ => [0, 1]) (1 / 2) 21 5 :=
  (SMC.sample_smc_deterministic ⟨100, 1, SMC.SmcKernel.metropolis, false, 42⟩
    ⟨100, 1, SMC.SmcKernel.metropolis, false, 42⟩ (fun _ _ => [0, 1])
    (1 / 2) 21 5 rfl rfl rfl rfl rfl).1

/-- C8: requesting the ABC kernel on a named model makes `sample_smc` fail
with the typed error `namedModelsUnsupported` before any sampling stage
runs — the result is the same for every oracle and carries no partial
sampling work. -/
theorem SMC.sample_smc_named_abc_error (cfg : SMC.SmcConfig)
    (oracle : ℕ → ℕ → List ℝ) (target : ℝ) (iters fuel : ℕ)
    (hk : cfg.kernel = SMC.SmcKernel.abc) (hm : cfg.modelIsNamed = true) :
    SMC.sample_smc cfg oracle target iters fuel =
      Except.error SMC.SmcError.namedModelsUnsupported := by
  unfold SMC.sample_smc
  rw [if_pos ⟨hk, by rw [hm]⟩]

/-- Witness for C8 at a concrete named-model ABC configuration. -/
theorem SMC.sample_smc_named_abc_error_witness :
    SMC.sample_smc ⟨1000, 1, SMC.SmcKernel.abc, true, 0⟩
        (fun _ _ => [0]) (1 / 2) 21 5 =
      Except.error SMC.SmcError.namedModelsUnsupported :=
  SMC.sample_smc_named_abc_error ⟨1000, 1, SMC.SmcKernel.abc, true, 0⟩
    (fun _ _ => [0]) (1 / 2) 21 5 rfl rfl

/-- C9: a valid configuration whose population size is below the
recommended minimum of 100 still completes: `sample_smc` returns a result
(`Except.ok`), and its warnings contain the non-fatal too-few-samples
warning. -/
theorem SMC.sample_smc_small_draws_warns (cfg : SMC.SmcConfig)
    (oracle : ℕ → ℕ → List ℝ) (target : ℝ) (iters fuel : ℕ)
    (hv : ¬ (cfg.kernel = SMC.SmcKernel.abc ∧ cfg.modelIsNamed = true))
    (hd : 0 < cfg.draws) (hc : 0 < cfg.chains) (hsmall : cfg.draws < 100) :
    ∃ r : SMC.SmcResult,
      SMC.sample_smc cfg oracle target iters fuel = Except.ok r ∧
        SMC.SmcWarning.tooFewSamples ∈ r.warnings := by
  unfold SMC.sample_smc
  rw [if_neg (by simpa using hv), if_neg (Nat.pos_iff_ne_zero.mp hd),
    if_neg (Nat.pos_iff_ne_zero.mp hc)]
  refine ⟨_, rfl, ?_⟩
  simp [hsmall]

/-- Witness for C9 at a concrete configuration with 99 draws. -/
theorem SMC.sample_smc_small_draws_warns_witness :
    ∃ r : SMC.SmcResult,
      SMC.sample_smc ⟨99, 1, SMC.SmcKernel.metropolis, false, 0⟩
          (fun _ _ => [0]) (1 / 2) 21 5 = Except.ok r ∧
        SMC.SmcWarning.tooFewSamples ∈ r.warnings :=
  SMC.sample_smc_small_draws_warns ⟨99, 1, SMC.SmcKernel.metropolis, false, 0⟩
    (fun _ _ => [0]) (1 / 2) 21 5 (by simp) (by norm_num) (by norm_num)
    (by norm_num)

namespace QA

/-- A model variable, identified by its name. -/
structure PyVar where
  name : String

/-- A multivariate normal distribution, given by its mean vector and its
covariance matrix (`scipy.stats.multivariate_normal(mean, cov)`). -/
structure MvNormalDist where
  mean : List ℝ
  cov : List (List ℝ)

/-- Embedded from `quadratic_approximation.py` lines 59–64: the slicing
loop.  For each variable in order, the samples are the contiguous slice
`draws[:, i : i + var_size]` of every draw vector, after which the running
offset `i` advances by `var_size = map[v.name].size`. -/
def slices (map : String → List ℝ) (draws : List (List ℝ)) :
    List PyVar → ℕ → List (String × List (List ℝ))
  | [], _ => []
  | v :: rest, i =>
      (v.name, draws.map (fun d => (d.drop i).take (map v.name).length)) ::
        slices map draws rest (i + (map v.name).length)

/-- Embedded from `quadratic_approximation.py` lines 53–65
(`quadratic_approximation`).  The external collaborators — `find_MAP`,
`find_hessian`, `np.linalg.inv` and the scipy sampler `rvs` — are passed as
function arguments.  The MAP point is found, the covariance is the inverse
of the Hessian at the MAP, the mean is the concatenation of the MAP values
of the variables in order, `n_samples` draws are taken from exactly that
multivariate normal, and the per-variable samples are the contiguous
slices of the draws. -/
def quadratic_approximation
    (find_MAP : List PyVar → String → List ℝ)
    (find_hessian : (String → List ℝ) → List PyVar → List (List ℝ))
    (inv : List (List ℝ) → List (List ℝ))
    (rvs : MvNormalDist → ℕ → List (List ℝ))
    (vars : List PyVar) (n_samples : ℕ) :
    List (String × List (List ℝ)) × MvNormalDist :=
  let map := find_MAP vars
  let H := find_hessian map vars
  let cov := inv H
  let mean := (vars.map (fun v => map v.name)).flatten
  let posterior : MvNormalDist := ⟨mean, cov⟩
  let draws := rvs posterior n_samples
  (slices map draws vars 0, posterior)

/-- The total size of the variables preceding position `j`: the offset at
which variable `j`'s slice starts. -/
def sizesBefore (map : String → List ℝ) (vars : List PyVar) (j : ℕ) : ℕ :=
  ((vars.take j).map (fun v => (map v.name).length)).sum

lemma sizesBefore_zero (map : String → List ℝ) (vars : List PyVar) :
    sizesBefore map vars 0 = 0 := rfl

lemma sizesBefore_cons (map : String → List ℝ) (v : PyVar)
    (rest : List PyVar) (j : ℕ) :
    sizesBefore map (v :: rest) (j + 1) =
      (map v.name).length + sizesBefore map rest j := by
  simp [sizesBefore, List.take_cons]

lemma slices_length (map : String → List ℝ) (draws : List (List ℝ)) :
    ∀ (vars : List PyVar) (i : ℕ), (slices map draws vars i).length = vars.length := by
  intro vars
  induction vars with
  | nil => intro i; rfl
  | cons v rest ih => intro i; simp [slices, ih]

lemma slices_getD (map : String → List ℝ) (draws : List (List ℝ)) :
    ∀ (vars : List PyVar) (i j : ℕ), j < vars.length →
      (slices map draws vars i).getD j ("", []) =
        ((vars.getD j ⟨""⟩).name,
          draws.map (fun d =>
            (d.drop (i + sizesBefore map vars j)).take
              (map (vars.getD j ⟨""⟩).name).length)) := by
  intro vars
  induction vars with
  | nil => intro i j hj; simp at hj
  | cons v rest ih =>
      intro i j hj
      cases j with
      | zero => simp [slices, sizesBefore_zero]
      | succ j' =>
          have hj' : j' < rest.length := by simpa using hj
          have := ih (i + (map v.name).length) j' hj'
          simp only [slices, List.getD_cons_succ, sizesBefore_cons]
          rw [this]
          simp [Nat.add_assoc]

end QA

/-- C10: in `quadratic_approximation`, the returned multivariate normal has
mean equal to the concatenation, in variable order, of the MAP point's
values and covariance equal to the inverse of the Hessian at the MAP
point; the returned samples are the draws taken from exactly that
distribution, with one entry per variable in the same order, each holding
the contiguous slice of every draw vector that starts at the sum of the
sizes of the preceding variables and has width equal to that variable's
size (so consecutive slices are adjacent and disjoint). -/
theorem QA.quadratic_approximation_spec
    (find_MAP : List QA.PyVar → String → List ℝ)
    (find_hessian : (String → List ℝ) → List QA.PyVar → List (List ℝ))
    (inv : List (List ℝ) → List (List ℝ))
    (rvs : QA.MvNormalDist → ℕ → List (List ℝ))
    (vars : List QA.PyVar) (n_samples : ℕ) :
    (QA.quadratic_approximation find_MAP find_hessian inv rvs vars
        n_samples).2.mean =
      (vars.map (fun v => find_MAP vars v.name)).flatten ∧
    (QA.quadratic_approximation find_MAP find_hessian inv rvs vars
        n_samples).2.cov =
      inv (find_hessian (find_MAP vars) vars) ∧
    (QA.quadratic_approximation find_MAP find_hessian inv rvs vars
        n_samples).1 =
      QA.slices (find_MAP vars)
        (rvs (QA.quadratic_approximation find_MAP find_hessian inv rvs vars
          n_samples).2 n_samples) vars 0 ∧
    (QA.quadratic_approximation find_MAP find_hessian inv rvs vars
        n_samples).1.length = vars.length ∧
    (∀ j, j < vars.length →
      (QA.quadratic_approximation find_MAP find_hessian inv rvs vars
          n_samples).1.getD j ("", []) =
        ((vars.getD j ⟨""⟩).name,
          (rvs (QA.quadratic_approximation find_MAP find_hessian inv rvs
              vars n_samples).2 n_samples).map
            (fun d => (d.drop (QA.sizesBefore (find_MAP vars) vars j)).take
              (find_MAP vars (vars.getD j ⟨""⟩).name).length))) ∧
    (∀ j, QA.sizesBefore (find_MAP vars) vars (j + 1) =
      if _h : j < vars.length then
        QA.sizesBefore (find_MAP vars) vars j +
          (find_MAP vars (vars.getD j ⟨""⟩).name).length
      else QA.sizesBefore (find_MAP vars) vars j) := by
  refine ⟨rfl, rfl, rfl, ?_, ?_, ?_⟩
  · exact QA.slices_length (find_MAP vars)
      (rvs (QA.quadratic_approximation find_MAP find_hessian inv rvs vars
        n_samples).2 n_samples) vars 0
  · intro j hj
    have := QA.slices_getD (find_MAP vars)
      (rvs (QA.quadratic_approximation find_MAP find_hessian inv rvs vars
        n_samples).2 n_samples) vars 0 j hj
    simpa [QA.sizesBefore_zero] using this
  · intro j
    by_cases h : j < vars.length
    · rw [dif_pos h]
      have hj : j < (vars.map (fun v => (find_MAP vars v.name).length)).length := by
        simpa using h
      have hget : vars.getD j ⟨""⟩ = vars[j] := List.getD_eq_getElem vars ⟨""⟩ h
      simp only [QA.sizesBefore, List.map_take]
      rw [List.take_succ, List.sum_append, List.getElem?_eq_getElem hj]
      simp [List.getD, List.getElem?_eq_getElem h]
    · rw [dif_neg h]
      have h1 : vars.length ≤ j := le_of_not_lt h
      simp [QA.sizesBefore, List.take_of_length_le h1,
        List.take_of_length_le (le_trans h1 (Nat.le_succ j))]

/-- Witness for C10: with two variables of sizes 1 and 2, the second
variable's samples are the contiguous slice of width 2 starting at offset 1
of each draw vector. -/
theorem QA.quadratic_approximation_spec_witness :
    (QA.quadratic_approximation
        (fun _ n => if n = "a" then [1] else [2, 3])
        (fun _ _ => [[1]]) (fun H => H) (fun _ _ => [[5, 6, 7]])
        [⟨"a"⟩, ⟨"b"⟩] 1).1.getD 1 ("", []) =
      ("b", [[6, 7]]) := by
  have h := (QA.quadratic_approximation_spec
    (fun _ n => if n = "a" then [1] else [2, 3])
    (fun _ _ => [[1]]) (fun H => H) (fun _ _ => [[5, 6, 7]])
    [⟨"a"⟩, ⟨"b"⟩] 1).2.2.2.2.1 1 (by norm_num)
  rw [h]
  simp [QA.sizesBefore]

/-- C6: a Metropolis step accepts exactly when
`log(uniform(0,1)) < (log_prior' + beta*log_likelihood') -
(log_prior + beta*log_likelihood)`: on acceptance the particle's state is
replaced by the proposal, on rejection it is unchanged, yet every step
counts in the acceptance-rate denominator; and over a flat tempered
log-posterior (acceptance log-ratio always nonnegative on the states
visited) every step accepts, so the empirical acceptance rate is 1. -/
theorem SMC.metropolis_spec (beta : ℝ) (cur prop : MhState) (logU : ℝ)
    (steps : List (SMC.MhState × ℝ)) (start : SMC.MhState)
    (P : SMC.MhState → Prop) :
    (logU < SMC.accept_ratio beta cur prop →
      SMC.mh_step beta cur prop logU = (prop, true)) ∧
    (¬ logU < SMC.accept_ratio beta cur prop →
      SMC.mh_step beta cur prop logU = (cur, false)) ∧
    (SMC.mh_chain beta start steps).2.2 = steps.length ∧
    ((∀ s₁ s₂ : SMC.MhState, P s₁ → P s₂ → 0 ≤ SMC.accept_ratio beta s₁ s₂) →
      P start → (∀ x ∈ steps, P x.1) → (∀ x ∈ steps, x.2 < 0) →
      (SMC.mh_chain beta start steps).2.1 = steps.length) := by
  refine ⟨?_, ?_, SMC.mh_chain_total beta steps start, ?_⟩
  · intro h; unfold SMC.mh_step; rw [if_pos h]
  · intro h; unfold SMC.mh_step; rw [if_neg h]
  · intro hflat hstart hmem hu
    exact SMC.mh_chain_flat_accepts beta P hflat steps start hstart hmem hu

/-- Witness for C6: a two-step chain with a flat log-posterior (all states
share log-prior 0 and log-likelihood 0) accepts every step. -/
theorem SMC.metropolis_spec_witness :
    (SMC.mh_chain 1 ⟨0, 0, 0⟩
        [(⟨1, 0, 0⟩, -1), (⟨2, 0, 0⟩, -2)]).2.1 = 2 := by
  have h := (SMC.metropolis_spec 1 ⟨0, 0, 0⟩ ⟨0, 0, 0⟩ 0
    [(⟨1, 0, 0⟩, -1), (⟨2, 0, 0⟩, -2)] ⟨0, 0, 0⟩
    (fun s => s.log_prior = 0 ∧ s.log_likelihood = 0)).2.2.2
  have h2 := h
    (by
      intro s₁ s₂ h₁ h₂
      simp [SMC.accept_ratio, h₁.1, h₁.2, h₂.1, h₂.2])
    (by exact ⟨rfl, rfl⟩)
    (by
      rintro x hx
      simp only [List.mem_cons, List.not_mem_nil, or_false] at hx
      rcases hx with rfl | rfl <;> exact ⟨rfl, rfl⟩)
    (by
      rintro x hx
      simp only [List.mem_cons, List.not_mem_nil, or_false] at hx
      rcases hx with rfl | rfl <;> norm_num)
  simpa using h2

/-- C5: the systematic resampler returns exactly `N` particles, each
assigned uniform weight `1/N`; and when one particle holds weight 1 and all
others weight 0, the output consists of `N` copies of that particle's value
(for any admissible uniform offset `u ∈ (0, 1/N)`). -/
theorem SMC.resample_spec (vals w : List ℝ) (u : ℝ)
    (hlen : w.length = vals.length) :
    (SMC.resample vals w u).1.length = vals.length ∧
    (SMC.resample vals w u).2 =
      List.replicate vals.length (1 / (vals.length : ℝ)) ∧
    (∀ k, k < vals.length → w = SMC.unitWeights vals.length k → 0 < u →
      u < 1 / (vals.length : ℝ) →
      (SMC.resample vals w u).1 =
        List.replicate vals.length (vals.getD k 0)) := by
  refine ⟨?_, ?_, ?_⟩
  · simp only [SMC.resample, SMC.systematic, List.length_map, List.length_range,
      hlen]
  · simp only [SMC.resample, hlen]
  intro k hk hw hu0 hu1
  have hn : 0 < vals.length := lt_of_le_of_lt (Nat.zero_le k) hk
  have hnr : (0 : ℝ) < (vals.length : ℝ) := Nat.cast_pos.mpr hn
  have hwl : w.length = vals.length := hlen
  have hcs : SMC.cumsum 0 w =
      List.replicate k 0 ++ List.replicate (vals.length - k - 1 + 1) 1 := by
    rw [hw]
    unfold SMC.unitWeights
    rw [SMC.cumsum_replicate_zero, SMC.cumsum_one_replicate_zero]
    norm_num
  have hpick : ∀ i ∈ List.range vals.length,
      SMC.pick (SMC.cumsum 0 w) (u + (i : ℝ) / (vals.length : ℝ)) = k := by
    intro i hi
    have hilt : i < vals.length := List.mem_range.mp hi
    have ht0 : 0 < u + (i : ℝ) / (vals.length : ℝ) :=
      add_pos_of_pos_of_nonneg hu0 (by positivity)
    have hcast : (i : ℝ) ≤ (vals.length : ℝ) - 1 := by
      have h1 : ((i + 1 : ℕ) : ℝ) ≤ (vals.length : ℝ) :=
        Nat.cast_le.mpr (Nat.succ_le_of_lt hilt)
      push_cast at h1
      linarith
    have ht1 : u + (i : ℝ) / (vals.length : ℝ) < 1 := by
      have hdiv : (i : ℝ) / (vals.length : ℝ) ≤
          ((vals.length : ℝ) - 1) / (vals.length : ℝ) := by
        apply div_le_div_of_nonneg_right hcast (le_of_lt hnr)
      calc u + (i : ℝ) / (vals.length : ℝ)
          < 1 / (vals.length : ℝ) + ((vals.length : ℝ) - 1) / (vals.length : ℝ) :=
            add_lt_add_of_lt_of_le hu1 hdiv
        _ = 1 := by field_simp
    rw [hcs, SMC.pick_step _ _ ht0 ht1]
  have hmap : List.map
      (fun i : ℕ => SMC.pick (SMC.cumsum 0 w) (u + (i : ℝ) / (vals.length : ℝ)))
      (List.range vals.length) =
      List.map (fun _ : ℕ => k) (List.range vals.length) :=
    List.map_congr_left hpick
  have hsys : SMC.systematic w u = List.replicate vals.length k := by
    unfold SMC.systematic
    rw [hwl, hmap]
    simp
  show (SMC.systematic w u).map (fun j => vals.getD j 0) =
    List.replicate vals.length (vals.getD k 0)
  rw [hsys, List.map_replicate]

/-- Witness for C5: three particles with all weight on the middle one;
resampling with offset `u = 1/6` returns three copies of its value `20`. -/
theorem SMC.resample_spec_witness :
    (SMC.resample [10, 20, 30] (SMC.unitWeights 3 1) (1 / 6)).1 =
      List.replicate 3 (([10, 20, 30] : List ℝ).getD 1 0) := by
  refine (SMC.resample_spec [10, 20, 30] (SMC.unitWeights 3 1) (1 / 6)
    (by simp [SMC.unitWeights])).2.2 1 (by norm_num) rfl (by norm_num) ?_
  simp only [List.length_cons, List.length_nil]
  norm_num

/-- C4: for every nonempty population whose per-particle log-likelihood
values are all equal, the effective sample size at any candidate beta is the
full population size, so whenever the ESS target does not exceed `N` the
tempering schedule controller returns `new_beta = 1` directly, with the
search flag reporting that no bisection ran. -/
theorem SMC.update_beta_degenerate (ll : List ℝ) (c beta target : ℝ)
    (iters : ℕ) (h : ll ≠ []) (hc : ∀ x ∈ ll, x = c)
    (ht : target ≤ ll.length) :
    SMC.update_beta (SMC.essOf ll beta) target iters beta = (1, false) := by
  unfold SMC.update_beta
  rw [if_pos]
  rw [SMC.essOf_const ll c beta 1 h hc]
  exact ht

/-- Witness for C4 at the all-equal log-likelihood population `[5, 5, 5]`
with ESS target 2. -/
theorem SMC.update_beta_degenerate_witness :
    SMC.update_beta (SMC.essOf [5, 5, 5] 0) 2 21 0 = (1, false) :=
  SMC.update_beta_degenerate [5, 5, 5] 5 0 2 21 (by simp)
    (by intro x hx; simpa using hx) (by norm_num)

/-- C1: the beta sequence produced by the SMC driver is monotonically
non-decreasing (indeed strictly increasing from the initial state 0), every
post-initial value lies in `(0, 1]`, once a stage sets `beta = 1` the stage
loop runs no further stage, if the effective sample size at full tempering
always meets the target then the driver stops at the first stage with
`beta` exactly 1, and — unconditionally — every run that completes within
its fuel bound (the stage loop exits rather than exhausting the fuel) ends
with its final beta equal to 1 exactly. -/
theorem SMC.beta_schedule_spec (lls : ℕ → List ℝ) (target : ℝ)
    (iters fuel : ℕ) :
    List.Chain (· ≤ ·) 0
        ((SMC.run_stages lls target iters fuel 0 0).map Prod.fst) ∧
    (∀ b ∈ (SMC.run_stages lls target iters fuel 0 0).map Prod.fst,
        0 < b ∧ b ≤ 1) ∧
    (∀ (fuel' k : ℕ), SMC.run_stages lls target iters fuel' 1 k = []) ∧
    ((∀ (k : ℕ) (b : ℝ), target ≤ SMC.essOf (lls k) b 1) → 0 < fuel →
        (SMC.run_stages lls target iters fuel 0 0).map Prod.fst = [1]) ∧
    ((SMC.run_stages lls target iters fuel 0 0).length < fuel →
        ((SMC.run_stages lls target iters fuel 0 0).map Prod.fst).getLast? =
          some 1) := by
  have hch := SMC.run_stages_chain lls target iters fuel 0 0
  refine ⟨hch.1.imp (fun a b hab => le_of_lt hab), hch.2, ?_, ?_, ?_⟩
  · intro fuel' k
    exact SMC.run_stages_of_one_le lls target iters fuel' 1 k le_rfl
  · intro hall hfuel
    obtain ⟨n, rfl⟩ : ∃ n, fuel = n + 1 :=
      ⟨fuel - 1, (Nat.succ_pred_eq_of_pos hfuel).symm⟩
    have h0 : ¬ (1 : ℝ) ≤ 0 := by norm_num
    have hup : SMC.update_beta (SMC.essOf (lls 0) 0) target iters 0 =
        (1, false) := by
      unfold SMC.update_beta
      rw [if_pos (hall 0 0)]
    simp [SMC.run_stages, h0, hup,
      SMC.run_stages_of_one_le lls target iters n 1 1 le_rfl]
  · intro hlen
    rcases SMC.run_stages_last_eq_one lls target iters fuel 0 0 hlen with
      hnil | hlast
    · have hf : 0 < fuel := by
        rw [hnil] at hlen
        simpa using hlen
      exact absurd hnil (SMC.run_stages_ne_nil lls target iters fuel hf 0)
    · exact hlast

/-- Witness for C1: a degenerate single-particle oracle keeps the ESS at the
target, so the driver performs exactly one stage within its fuel bound of 3
and the last (and only) beta is exactly 1. -/
theorem SMC.beta_schedule_spec_witness :
    (SMC.run_stages (fun _ => [(0 : ℝ)]) 1 21 3 0 0).map Prod.fst = [1] ∧
      ((SMC.run_stages (fun _ => [(0 : ℝ)]) 1 21 3 0 0).map Prod.fst).getLast? =
        some 1 := by
  have hall : ∀ (k : ℕ) (b : ℝ),
      (1 : ℝ) ≤ SMC.essOf ((fun _ => [(0 : ℝ)]) k) b 1 := by
    intro k b
    simp [SMC.essOf]
  have hup : SMC.update_beta (SMC.essOf [(0 : ℝ)] 0) 1 21 0 = (1, false) := by
    unfold SMC.update_beta
    rw [if_pos (hall 0 0)]
  have hrun : SMC.run_stages (fun _ => [(0 : ℝ)]) 1 21 3 0 0 =
      [(1, SMC.mll_increment [(0 : ℝ)] (1 - 0))] := by
    simp [SMC.run_stages, show ¬ (1 : ℝ) ≤ 0 by norm_num, hup,
      SMC.run_stages_of_one_le (fun _ => [(0 : ℝ)]) 1 21 2 1 1 le_rfl]
  refine ⟨(SMC.beta_schedule_spec (fun _ => [(0 : ℝ)]) 1 21 3).2.2.2.1 hall
    (by norm_num), (SMC.beta_schedule_spec (fun _ => [(0 : ℝ)]) 1 21 3).2.2.2.2
    ?_⟩
  rw [hrun]
  norm_num

/-- C3: every stage record of a driver run carries the marginal-likelihood
increment `logsumexp(delta * log_likelihood_i) - log N` for that stage
(`delta` being the difference between its beta and the previous stage's
beta, starting from the initial `beta = 0`), and the final
log-marginal-likelihood estimate is the sum of the per-stage increments. -/
theorem SMC.marginal_likelihood_spec (lls : ℕ → List ℝ) (target : ℝ)
    (iters fuel : ℕ) :
    SMC.IncrementsOk lls 0 0 (SMC.run_stages lls target iters fuel 0 0) ∧
      SMC.log_marginal lls target iters fuel =
        ((SMC.run_stages lls target iters fuel 0 0).map Prod.snd).sum :=
  ⟨SMC.run_stages_increments lls target iters fuel 0 0, rfl⟩

/-- C2: for every nonempty population and every temperature increment,
immediately after the reweighting step the per-particle weights sum exactly
to 1, hence in particular `|sum(weight) - 1| < 1e-9`. -/
theorem SMC.reweight_normalizes (ll : List ℝ) (delta : ℝ) (h : ll ≠ []) :
    (SMC.reweight ll delta).sum = 1 ∧
      |(SMC.reweight ll delta).sum - 1| < 1e-9 := by
  refine ⟨SMC.reweight_sum ll delta h, ?_⟩
  rw [SMC.reweight_sum ll delta h]
  norm_num

/-- Witness for C2 at the concrete population `[0, 1]` with `delta = 1`. -/
theorem SMC.reweight_normalizes_witness :
    (SMC.reweight [0, 1] 1).sum = 1 ∧
      |(SMC.reweight [0, 1] 1).sum - 1| < 1e-9 :=
  SMC.reweight_normalizes [0, 1] 1 (by simp)
